import Mathlib

/-!
Verification of the changeset reconstruction and hash translation helper
(`src/helper/main.rs`).  Byte strings are modelled as `List Nat`, object ids
(20-byte hashes) as `List Nat` of length 20.  External collaborators (the
object store, the authorship codec from `hg_data`, the SHA1 hasher) are taken
as function parameters.
-/

namespace Cinnabar

/-- ASCII bytes of a string literal. -/
def bytes (s : String) : List Nat := s.data.map Char.toNat

/-- The all-zero 20-byte null object id (`object_id::null` / `hg_object_id::null`). -/
def nullOid : List Nat := List.replicate 20 0

/-- Rust `<[u8] as Ord>::lt`: strict lexicographic comparison on byte slices
(`*e < &b"committer:"[..]` at line 184). -/
def lexLt : List Nat → List Nat → Bool
  | [], [] => false
  | [], _ :: _ => true
  | _ :: _, [] => false
  | a :: as_, b :: bs => a < b || (a == b && lexLt as_ bs)

/-- Rust `<[u8] as Ord>::le`: lexicographic comparison on byte slices
(`*e <= &b"committer:"[..]` at line 190, and the order used by `sort()`). -/
def lexLe : List Nat → List Nat → Bool
  | [], _ => true
  | _ :: _, [] => false
  | a :: as_, b :: bs => a < b || (a == b && lexLe as_ bs)

/-- The lexicographic order as a proposition. -/
def LexLe (a b : List Nat) : Prop := lexLe a b = true

instance : DecidableRel LexLe := fun a b => inferInstanceAs (Decidable (_ = true))

/-- Rust `Vec::sort` by `Ord` (a sorted permutation; the lexicographic order is
a linear order, so the sorted permutation is unique and an insertion sort
produces the same list as the stable merge sort used by Rust). -/
def sortBytes (l : List (List Nat)) : List (List Nat) := List.insertionSort LexLe l

/-- `SliceExt::split2` from `util` (not under src/).  Modelled from the spec:
header and metadata lines are `key value` pairs, split at the first occurrence
of the separator; `None` when the separator does not occur. -/
def split2 (sep : Nat) : List Nat → Option (List Nat × List Nat)
  | [] => none
  | c :: rest =>
    if c = sep then some ([], rest)
    else (split2 sep rest).map (fun p => (c :: p.1, p.2))

/-- `commit.split2(&b"\n\n"[..])` (line 124): split at the first occurrence of
two consecutive newline bytes. -/
def splitOnDoubleNewline : List Nat → Option (List Nat × List Nat)
  | 10 :: 10 :: rest => some ([], rest)
  | c :: rest => (splitOnDoubleNewline rest).map (fun p => (c :: p.1, p.2))
  | [] => none

/-- `slice.split(|c| *c == b'\0')` on byte strings. -/
def splitOnNull (l : List Nat) : List (List Nat) := List.splitOn 0 l

/-- `bstr::ByteSlice::lines` (external crate): lines terminated by a newline,
with a trailing carriage return stripped and no empty trailing line. -/
def linesOf (l : List Nat) : List (List Nat) :=
  let parts := List.splitOn 10 l
  let parts := if parts.getLast? = some [] then parts.dropLast else parts
  parts.map (fun ln => if ln.getLast? = some 13 then ln.dropLast else ln)

/-- Lowercase hex digit for a value below 16 (`0x30 + n` or `0x57 + n`). -/
def hexDigitChar (n : Nat) : Nat := if n < 10 then 48 + n else 87 + n

/-- Lowercase hex rendering of a byte string, as the `Display` impl of
`object_id` / `hg_object_id` (two hex digits per byte). -/
def hexLower (l : List Nat) : List Nat :=
  l.flatMap (fun b => [hexDigitChar (b / 16), hexDigitChar (b % 16)])

/-- Value of one hex digit byte, `none` for a non-hex byte. -/
def hexVal (c : Nat) : Option Nat :=
  if 48 ≤ c ∧ c ≤ 57 then some (c - 48)
  else if 97 ≤ c ∧ c ≤ 102 then some (c - 87)
  else if 65 ≤ c ∧ c ≤ 70 then some (c - 55)
  else none

/-- Decode pairs of hex digit bytes into bytes; `none` on odd length or a
non-hex byte. -/
def hexPairs : List Nat → Option (List Nat)
  | [] => some []
  | [_] => none
  | a :: b :: rest =>
    match hexVal a, hexVal b with
    | some x, some y => (hexPairs rest).map (fun l => (16 * x + y) :: l)
    | _, _ => none

/-- `object_id::from_bytes` / `hg_object_id::from_bytes` (from `libgit` /
`libcinnabar`, not under src/).  Modelled from the spec: a full 40-hex-digit
rendering parsed back into 20 bytes. -/
def oidFromBytes (l : List Nat) : Option (List Nat) :=
  if l.length = 40 then hexPairs l else none

/-- `usize::from_bytes` from `util` (not under src/).  Modelled from the spec:
decimal parse of the `start` / `end` fields of a patch edit. -/
def decToNat (l : List Nat) : Option Nat :=
  if l.isEmpty then none
  else l.foldl (fun acc c =>
    acc.bind (fun n => if 48 ≤ c ∧ c ≤ 57 then some (n * 10 + (c - 48)) else none))
    (some 0)

/-- `percent_encoding::percent_decode` (external crate): a `%` followed by two
hex digits decodes to one byte; anything else is passed through verbatim. -/
def percentDecode : List Nat → List Nat
  | [] => []
  | 37 :: a :: b :: rest =>
    match hexVal a, hexVal b with
    | some x, some y => (16 * x + y) :: percentDecode rest
    | _, _ => 37 :: percentDecode (a :: b :: rest)
  | c :: rest => c :: percentDecode rest

/-- Rust `Iterator::take_while` over a `&mut` iterator: returns the collected
satisfying elements and the state of the underlying iterator afterwards.  The
first element failing the predicate is consumed from the underlying iterator
and dropped (lines 183-185). -/
def takeWhileConsume (p : List Nat → Bool) : List (List Nat) → List (List Nat) × List (List Nat)
  | [] => ([], [])
  | e :: rest =>
    if p e then
      let r := takeWhileConsume p rest
      (e :: r.1, r.2)
    else ([], rest)

/-- The bytes `"committer:"`. -/
def committerKey : List Nat := bytes "committer:"

/-- The extra/committer merge of `do_data` (lines 170-194), given the stored
`extra` blob and the raw `to_hg_bytes` committer rendering.  The closure at
lines 172-177 prepends `"committer:"`; the `(Some, Some)` arm then splits
`extra` on null bytes, collects the entries sorting strictly below
`"committer:"` with `take_while`, appends `b"committer:"` followed by the
(already prefixed) committer bytes, then the rest of the iterator after
`skip_while(<= "committer:")`, and joins with null bytes.  `none` models the
`unreachable` arm. -/
def mergeExtraCommitter (extra hgCommitter : Option (List Nat)) : Option (List Nat) :=
  let hgCommitter1 := hgCommitter.map (fun c => committerKey ++ c)
  match extra, hgCommitter1 with
  | some e, none => some e
  | none, some hc => some hc
  | some e, some hc =>
    let entries := splitOnNull e
    let r := takeWhileConsume (fun x => lexLt x committerKey) entries
    let hcExtra := committerKey ++ hc
    let newExtra := r.1 ++ [hcExtra] ++ r.2.dropWhile (fun x => lexLe x committerKey)
    some (List.intercalate [0] newExtra)
  | none, none => none

/-- Outcome of a fallible parsing step: `ok`, or a Rust panic (process abort)
with its message. -/
inductive PResult (α : Type) where
  | ok : α → PResult α
  | panicked : String → PResult α
deriving DecidableEq

/-- The metadata side-record parsed from the git2hg note blob (lines 146-161).
`manifest` starts as the null id and keeps it when no `manifest` line is
present. -/
structure MetadataRec where
  node : Option (List Nat)
  manifest : List Nat
  author : Option (List Nat)
  extra : Option (List Nat)
  files : Option (List Nat)
  patch : Option (List Nat)
deriving DecidableEq

/-- Initial metadata state (lines 146-150): no changeset node, null manifest,
no overrides. -/
def initMeta : MetadataRec :=
  { node := none, manifest := nullOid, author := none, extra := none,
    files := none, patch := none }

/-- The recognized metadata keys of the `match` at lines 152-159. -/
def metaKeys : List (List Nat) :=
  [bytes "changeset", bytes "manifest", bytes "author", bytes "extra",
   bytes "files", bytes "patch"]

/-- One iteration of the metadata parsing loop (lines 151-161): split the line
at the first space, dispatch on the key; an unrecognized key hits
`panic!("Malformed metadata")`, a malformed value or a line without a space
hits an `unwrap` panic. -/
def parseMetaLine (m : MetadataRec) (line : List Nat) : PResult MetadataRec :=
  match split2 32 line with
  | none => .panicked "called Option.unwrap on a None value"
  | some (k, v) =>
    if k = bytes "changeset" then
      match oidFromBytes v with
      | some h => .ok { m with node := some h }
      | none => .panicked "called Option.unwrap on a None value"
    else if k = bytes "manifest" then
      match oidFromBytes v with
      | some h => .ok { m with manifest := h }
      | none => .panicked "called Option.unwrap on a None value"
    else if k = bytes "author" then .ok { m with author := some v }
    else if k = bytes "extra" then .ok { m with extra := some v }
    else if k = bytes "files" then .ok { m with files := some v }
    else if k = bytes "patch" then .ok { m with patch := some v }
    else .panicked "Malformed metadata"

/-- The metadata parsing loop over the note blob lines (lines 151-161). -/
def parseMetaLines (lines : List (List Nat)) (m : MetadataRec) : PResult MetadataRec :=
  match lines with
  | [] => .ok m
  | line :: rest =>
    match parseMetaLine m line with
    | .ok m1 => parseMetaLines rest m1
    | .panicked s => .panicked s

/-- The commit header scanning loop (lines 125-138): collect `parent` lines in
encounter order, remember the last `author` and `committer` lines, stop at an
empty line, and silently ignore any other key. -/
def scanHeader :
    List (List Nat) → List (List Nat) → Option (List Nat) → Option (List Nat) →
    PResult (List (List Nat) × Option (List Nat) × Option (List Nat))
  | [], ps, a, c => .ok (ps, a, c)
  | line :: rest, ps, a, c =>
    if line = [] then .ok (ps, a, c)
    else
      match split2 32 line with
      | none => .panicked "called Option.unwrap on a None value"
      | some (k, v) =>
        if k = bytes "parent" then
          match oidFromBytes v with
          | some p => scanHeader rest (ps ++ [p]) a c
          | none => .panicked "called Option.unwrap on a None value"
        else if k = bytes "author" then scanHeader rest ps (some v) c
        else if k = bytes "committer" then scanHeader rest ps a (some v)
        else scanHeader rest ps a c

/-- Baseline changeset assembly (lines 163-205), in the exact statement order
of the source: manifest hex and newline, author and newline, timestamp, space,
utc offset, optionally a space and the merged extra payload, the sorted file
paths each preceded by a newline, two newlines, and the body.  `none` models
the unreachable arm of the extra merge. -/
def buildChangeset (manifest hgAuthor hgTimestamp hgUtcoffset : List Nat)
    (extra hgCommitter : Option (List Nat)) (files : Option (List Nat))
    (body : List Nat) : Option (List Nat) :=
  let cs0 := hexLower manifest ++ [10]
  let cs1 := cs0 ++ hgAuthor ++ [10]
  let cs2 := cs1 ++ hgTimestamp ++ [32] ++ hgUtcoffset
  let cs3? :=
    if extra.isSome || hgCommitter.isSome then
      (mergeExtraCommitter extra hgCommitter).map (fun m => cs2 ++ [32] ++ m)
    else some cs2
  cs3?.map (fun cs3 =>
    let cs4 :=
      match files with
      | some fl => (sortBytes (splitOnNull fl)).foldl (fun acc f => acc ++ [10] ++ f) cs3
      | none => cs3
    cs4 ++ [10, 10] ++ body)

/-- `&b[i..j]` on a byte slice: `none` models the Rust slice-index panic when
the range is out of bounds. -/
def sliceR (b : List Nat) (i j : Nat) : Option (List Nat) :=
  if i ≤ j ∧ j ≤ b.length then some ((b.take j).drop i) else none

/-- `&b[i..]` on a byte slice, with the same panic model. -/
def sliceFrom (b : List Nat) (i : Nat) : Option (List Nat) :=
  if i ≤ b.length then some (b.drop i) else none

/-- The patch application loop of `do_data` (lines 207-219): a cursor starting
at 0, and for each `(start, end, data)` edit, the baseline bytes from the
cursor up to `start`, the percent-decoded data, and the cursor moved to `end`;
after the last edit the baseline bytes from the cursor onward. -/
def applyPatchAux (b : List Nat) :
    List (Nat × Nat × List Nat) → Nat → List Nat → Option (List Nat)
  | [], cur, acc => (sliceFrom b cur).map (fun t => acc ++ t)
  | (s, e, d) :: rest, cur, acc =>
    match sliceR b cur s with
    | none => none
    | some seg => applyPatchAux b rest e (acc ++ seg ++ percentDecode d)

/-- Patch application over a baseline buffer (`last_end` starts at 0). -/
def applyPatch (edits : List (Nat × Nat × List Nat)) (b : List Nat) : Option (List Nat) :=
  applyPatchAux b edits 0 []

/-- The `patch` metadata value parsed into edits: split on null bytes, each
part split at its first two commas into decimal `start`, decimal `end` and the
raw data (`split3` from `util` is not under src/; modelled from the spec:
`(start, end, percent-encoded-replacement)` triples). -/
def parsePatchEdits : List (List Nat) → PResult (List (Nat × Nat × List Nat))
  | [] => .ok []
  | part :: rest =>
    match split2 44 part with
    | none => .panicked "called Option.unwrap on a None value"
    | some (s, rest1) =>
      match split2 44 rest1 with
      | none => .panicked "called Option.unwrap on a None value"
      | some (e, data) =>
        match decToNat s, decToNat e with
        | some sn, some en =>
          match parsePatchEdits rest with
          | .ok es => .ok ((sn, en, data) :: es)
          | .panicked m => .panicked m
        | _, _ => .panicked "called Option.unwrap on a None value"

/-- The declarative reading of patch application from the spec: copy from the
cursor up to `start`, append the decoded data, continue from `end`. -/
def applyPatchSpec (b : List Nat) : List (Nat × Nat × List Nat) → Nat → List Nat
  | [], cur => b.drop cur
  | (s, _e, d) :: rest, cur =>
    (b.drop cur).take (s - cur) ++ percentDecode d ++ applyPatchSpec b rest _e

/-- Well-formedness of an edit list against a buffer length: every slice taken
by the loop is in bounds. -/
def patchWFb (len : Nat) : List (Nat × Nat × List Nat) → Nat → Bool
  | [], cur => cur ≤ len
  | (s, e, _) :: rest, cur => cur ≤ s && s ≤ len && patchWFb len rest e

/-- Number of trailing null bytes of a buffer. -/
def trailingNulls (l : List Nat) : Nat := (l.reverse.takeWhile (· == 0)).length

/-- Drop the last byte `n` times. -/
def dropLastN (l : List Nat) : Nat → List Nat
  | 0 => l
  | n + 1 => dropLastN l.dropLast n

/-- The trailing-null adjustment loop (lines 227-243): while the buffer ends in
a null byte, compare the recomputed hash (abstracted as the predicate `ok`)
with the recorded node; stop on a match, otherwise strip one trailing byte. -/
def adjustLoop (ok : List Nat → Bool) (cs : List Nat) : List Nat :=
  if h : cs.getLast? = some 0 then
    if ok cs then cs else adjustLoop ok cs.dropLast
  else cs
termination_by cs.length
decreasing_by
  have hne : cs ≠ [] := by intro hc; subst hc; simp at h
  have hp : 0 < cs.length := List.length_pos.mpr hne
  simp only [List.length_dropLast]; omega

/-- Number of strip iterations performed by the adjustment loop. -/
def adjustSteps (ok : List Nat → Bool) (cs : List Nat) : Nat :=
  if h : cs.getLast? = some 0 then
    if ok cs then 0 else adjustSteps ok cs.dropLast + 1
  else 0
termination_by cs.length
decreasing_by
  have hne : cs ≠ [] := by intro hc; subst hc; simp at h
  have hp : 0 < cs.length := List.length_pos.mpr hne
  simp only [List.length_dropLast]; omega

/-- The two 20-byte parent slots fed to the verification hash (lines 230-237):
the parent hashes sorted by byte value, padded with the null id, and truncated
to two slots. -/
def hashParentSlots (parents : List (List Nat)) : List (List Nat) :=
  (sortBytes parents ++ List.replicate 2 nullOid).take 2

/-- The byte stream fed to the verification hasher (lines 235-238): the two
parent slots, then the candidate changeset bytes. -/
def verifInput (parents : List (List Nat)) (cs : List Nat) : List Nat :=
  (hashParentSlots parents).foldl (fun acc p => acc ++ p) [] ++ cs

/-- Outcome of one `do_data` request: bytes written to stdout, an error value
returned to the caller (`Result::Err`), or a Rust panic (process abort). -/
inductive DOutcome where
  | ok : List Nat → DOutcome
  | err : String → DOutcome
  | panicked : String → DOutcome
deriving DecidableEq

/-- The changeset path of `do_data` (lines 112-245).  External collaborators
are parameters: `codecParts` is `Authorship::from_git_bytes(..).to_hg_parts()`,
`codecBytes` is `Authorship::from_git_bytes(..).to_hg_bytes()`, `pToHg` is
`object_id::to_hg`, `sha1` is the hasher applied to the full input stream,
`revStr` the displayed revision, `toGitRes` the result of `rev.to_git()`,
`noteRes` the metadata note blob (or `none` when `get_note` finds nothing) and
`commitRes` the raw commit bytes. -/
def doDataChangeset (codecParts : List Nat → List Nat × List Nat × List Nat)
    (codecBytes : List Nat → List Nat) (pToHg : List Nat → Option (List Nat))
    (sha1 : List Nat → List Nat) (revStr : String)
    (toGitRes : Option (List Nat)) (noteRes : Option (List Nat))
    (commitRes : Option (List Nat)) : DOutcome :=
  match toGitRes with
  | none => .err ("Unknown revision: " ++ revStr)
  | some _ =>
    match noteRes with
    | none => .panicked "called Option.unwrap on a None value"
    | some metadataBytes =>
      match commitRes with
      | none => .panicked "called Option.unwrap on a None value"
      | some commitBytes =>
        match splitOnDoubleNewline commitBytes with
        | none => .panicked "called Option.unwrap on a None value"
        | some (header, body) =>
          match scanHeader (linesOf header) [] none none with
          | .panicked m => .panicked m
          | .ok (parents, authorOpt, committerOpt) =>
            match authorOpt with
            | none => .panicked "called Option.unwrap on a None value"
            | some authorLine =>
              let parts := codecParts authorLine
              let hgCommitter? : PResult (Option (List Nat)) :=
                if authorOpt ≠ committerOpt then
                  match committerOpt with
                  | none => .panicked "called Option.unwrap on a None value"
                  | some c => .ok (some (codecBytes c))
                else .ok none
              match hgCommitter? with
              | .panicked m => .panicked m
              | .ok hgCommitter =>
                match parseMetaLines (linesOf metadataBytes) initMeta with
                | .panicked m => .panicked m
                | .ok meta =>
                  let hgAuthor := meta.author.getD parts.1
                  match buildChangeset meta.manifest hgAuthor parts.2.1 parts.2.2
                      meta.extra hgCommitter meta.files body with
                  | none => .panicked "internal error: entered unreachable code"
                  | some baseline =>
                    let patched? : PResult (List Nat) :=
                      match meta.patch with
                      | none => .ok baseline
                      | some p =>
                        match parsePatchEdits (splitOnNull p) with
                        | .panicked m => .panicked m
                        | .ok edits =>
                          match applyPatch edits baseline with
                          | none => .panicked "slice index out of range"
                          | some patched => .ok patched
                    match patched? with
                    | .panicked m => .panicked m
                    | .ok patched =>
                      match meta.node with
                      | none => .panicked "called Option.unwrap on a None value"
                      | some node =>
                        if patched.getLast? = some 0 then
                          match parents.mapM pToHg with
                          | none => .panicked "called Option.unwrap on a None value"
                          | some hgParents =>
                            .ok (adjustLoop
                              (fun cs => sha1 (verifInput hgParents cs) == node) patched)
                        else .ok patched

/-- `do_hg2git` (lines 78-85): for each input, the full hex rendering of the
resolved git id (or the null id when unresolved), truncated to the abbreviation
width (40 when no width was passed down). -/
def doHg2git (toGit : List Nat → Option (List Nat)) (widthOpt : Option Nat)
    (sha1s : List (List Nat)) : Except String (List (List Nat)) :=
  let w := widthOpt.getD 40
  Except.ok (sha1s.map (fun s => (hexLower ((toGit s).getD nullOid)).take w))

/-- `do_git2hg` (lines 87-104): for each committish, resolve it to a git id and
then to its mercurial counterpart; either resolution failing yields the null id
placeholder; truncation as in `do_hg2git`. -/
def doGit2hg (resolveC : List Nat → Option (List Nat))
    (toHg : List Nat → Option (List Nat)) (widthOpt : Option Nat)
    (committish : List (List Nat)) : Except String (List (List Nat)) :=
  let w := widthOpt.getD 40
  Except.ok (committish.map (fun c =>
    (hexLower (((resolveC c).bind toHg).getD nullOid)).take w))

/-- Hash abbreviation: the first `w` hex digits of the full rendering
(`&hex[..abbrev]`). -/
def abbreviate (h : List Nat) (w : Nat) : List Nat := (hexLower h).take w

/-- The range check of `AbbrevSize::from_str` (lines 281-288), after the
numeric parse: 3 to 40 accepted, anything larger or smaller rejected with a
message. -/
def abbrevSizeCheck (v : Nat) : Except String Nat :=
  if 3 ≤ v ∧ v ≤ 40 then .ok v
  else if 41 ≤ v then .error ("value too large: " ++ toString v)
  else .error ("value too small: " ++ toString v)

/-- The width passed to `do_hg2git` / `do_git2hg` by `git_cinnabar` (lines
383-389): when the `--abbrev` option was given, its first value, defaulting to
12 when the option carries no value. -/
def effectiveAbbrev (vs : Option (List Nat)) : Option Nat :=
  vs.map (fun v => (v.head?).getD 12)

/-- Whether a byte is a lowercase hex digit. -/
def isHexDigitByte (c : Nat) : Bool :=
  (48 ≤ c && c ≤ 57) || (97 ≤ c && c ≤ 102)

/-! ## Order lemmas for the byte-wise lexicographic comparison -/

theorem lexLe_total (a b : List Nat) : lexLe a b = true ∨ lexLe b a = true := by
  induction a generalizing b with
  | nil => left; simp [lexLe]
  | cons x as_ ih =>
    cases b with
    | nil => right; simp [lexLe]
    | cons y bs =>
      rcases Nat.lt_trichotomy x y with h | h | h
      · left; simp [lexLe, h]
      · subst h
        rcases ih bs with h2 | h2
        · left; simp [lexLe, h2]
        · right; simp [lexLe, h2]
      · right; simp [lexLe, h]

theorem lexLe_trans (a b c : List Nat) (hab : lexLe a b = true)
    (hbc : lexLe b c = true) : lexLe a c = true := by
  induction a generalizing b c with
  | nil => simp [lexLe]
  | cons x as_ ih =>
    cases b with
    | nil => simp [lexLe] at hab
    | cons y bs =>
      cases c with
      | nil => simp [lexLe] at hbc
      | cons z cs =>
        simp only [lexLe, Bool.or_eq_true, Bool.and_eq_true, decide_eq_true_eq,
          beq_iff_eq] at hab hbc ⊢
        rcases hab with h1 | ⟨h1, h1'⟩ <;> rcases hbc with h2 | ⟨h2, h2'⟩
        · exact Or.inl (h1.trans h2)
        · exact Or.inl (by omega)
        · exact Or.inl (by omega)
        · exact Or.inr ⟨by omega, ih bs cs h1' h2'⟩

instance : IsTotal (List Nat) LexLe := ⟨fun a b => lexLe_total a b⟩

instance : IsTrans (List Nat) LexLe := ⟨fun a b c => lexLe_trans a b c⟩

theorem sortBytes_perm (l : List (List Nat)) : (sortBytes l).Perm l :=
  List.perm_insertionSort LexLe l

theorem sortBytes_sorted (l : List (List Nat)) : List.Sorted LexLe (sortBytes l) :=
  List.sorted_insertionSort LexLe l

/-! ## Small utility lemmas -/

theorem hexLower_length (l : List Nat) : (hexLower l).length = 2 * l.length := by
  induction l with
  | nil => simp [hexLower]
  | cons b rest ih => simp [hexLower] at ih ⊢; omega

theorem foldl_newline_append (fs : List (List Nat)) :
    ∀ acc : List Nat, fs.foldl (fun a f => a ++ [10] ++ f) acc =
      acc ++ fs.flatMap (fun f => 10 :: f) := by
  induction fs with
  | nil => intro acc; simp
  | cons f fs ih =>
    intro acc
    rw [List.foldl_cons, List.flatMap_cons, ih]
    simp [List.append_assoc]

theorem trailingNulls_dropLast (cs : List Nat) (h : cs.getLast? = some 0) :
    trailingNulls cs = trailingNulls cs.dropLast + 1 := by
  obtain ⟨ys, rfl⟩ := List.getLast?_eq_some_iff.mp h
  simp [trailingNulls, List.dropLast_concat, List.takeWhile_cons]

/-- C10: the merge block of the extra/committer handling is entered only when
at least one of the stored extra blob and the synthesized committer entry is
present, so the match arm for both being absent (the source's `unreachable`
panic) can never fire. -/
theorem c10_unreachable_arm (extra hgCommitter : Option (List Nat))
    (h : extra.isSome = true ∨ hgCommitter.isSome = true) :
    (mergeExtraCommitter extra hgCommitter).isSome = true := by
  rcases extra with _ | e <;> rcases hgCommitter with _ | c <;>
    simp [mergeExtraCommitter] at h ⊢

theorem c10_witness :
    ((some (bytes "a:1") : Option (List Nat)).isSome = true ∨
      (none : Option (List Nat)).isSome = true) ∧
    (mergeExtraCommitter (some (bytes "a:1")) none).isSome = true :=
  ⟨Or.inl rfl, c10_unreachable_arm (some (bytes "a:1")) none (Or.inl rfl)⟩

/-- C1: evaluating the extra/committer merge of `do_data` on the spec's
example: stored extra `"a:1\0z:9"` and committer value `"bob"`.  The code
produces `"a:1\0committer:committer:bob"`: the `"committer:"` prefix is added
twice (once by the closure at lines 172-177 and again at lines 186-188), and
the `take_while` at lines 183-185 consumes and drops `"z:9"`, the first entry
not sorting strictly below `"committer:"`.  The merged payload the claim
describes, `"a:1\0committer:bob\0z:9"`, is not produced. -/
theorem c1_merge_evaluation :
    mergeExtraCommitter (some (bytes "a:1\x00z:9")) (some (bytes "bob")) =
      some (bytes "a:1\x00committer:committer:bob") ∧
    mergeExtraCommitter (some (bytes "a:1\x00z:9")) (some (bytes "bob")) ≠
      some (bytes "a:1\x00committer:bob\x00z:9") := by
  exact ⟨by decide, by decide⟩

/-- C2: the trailing-null adjustment loop strips exactly one trailing byte per
iteration, each stripped iteration had a buffer ending in a null byte whose
hash did not match, the number of iterations never exceeds the number of
trailing null bytes (in particular it is zero when there are none), the loop
stops keeping the buffer as soon as a match is found, and the final buffer
either matches or no longer ends in a null byte (accepted without a hard
failure). -/
theorem c2_adjust_loop (ok : List Nat → Bool) (cs : List Nat) :
    adjustLoop ok cs = dropLastN cs (adjustSteps ok cs) ∧
    adjustSteps ok cs ≤ trailingNulls cs ∧
    (∀ j, j < adjustSteps ok cs →
      (dropLastN cs j).getLast? = some 0 ∧ ok (dropLastN cs j) = false) ∧
    (cs.getLast? ≠ some 0 → adjustSteps ok cs = 0 ∧ adjustLoop ok cs = cs) ∧
    (cs.getLast? = some 0 → ok cs = true →
      adjustSteps ok cs = 0 ∧ adjustLoop ok cs = cs) ∧
    (ok (adjustLoop ok cs) = true ∨ (adjustLoop ok cs).getLast? ≠ some 0) := by
  suffices h : ∀ n (cs : List Nat), cs.length ≤ n →
      adjustLoop ok cs = dropLastN cs (adjustSteps ok cs) ∧
      adjustSteps ok cs ≤ trailingNulls cs ∧
      (∀ j, j < adjustSteps ok cs →
        (dropLastN cs j).getLast? = some 0 ∧ ok (dropLastN cs j) = false) ∧
      (cs.getLast? ≠ some 0 → adjustSteps ok cs = 0 ∧ adjustLoop ok cs = cs) ∧
      (cs.getLast? = some 0 → ok cs = true →
        adjustSteps ok cs = 0 ∧ adjustLoop ok cs = cs) ∧
      (ok (adjustLoop ok cs) = true ∨ (adjustLoop ok cs).getLast? ≠ some 0) by
    exact h cs.length cs le_rfl
  intro n
  induction n with
  | zero =>
    intro cs hlen
    have hcs : cs = [] := List.length_eq_zero.mp (Nat.le_zero.mp hlen)
    subst hcs
    have hl : (([] : List Nat)).getLast? ≠ some 0 := by simp
    have hloop : adjustLoop ok [] = [] := by rw [adjustLoop]; simp
    have hsteps : adjustSteps ok [] = 0 := by rw [adjustSteps]; simp
    refine ⟨by simp [hloop, hsteps, dropLastN], by simp [hsteps],
      ?_, fun _ => ⟨hsteps, hloop⟩, ?_, Or.inr (by rw [hloop]; exact hl)⟩
    · intro j hj; rw [hsteps] at hj; omega
    · intro hcon; exact absurd hcon hl
  | succ n ih =>
    intro cs hlen
    by_cases hl : cs.getLast? = some 0
    · by_cases hok : ok cs = true
      · have hloop : adjustLoop ok cs = cs := by
          rw [adjustLoop]; simp [hl, hok]
        have hsteps : adjustSteps ok cs = 0 := by
          rw [adjustSteps]; simp [hl, hok]
        refine ⟨by simp [hloop, hsteps, dropLastN], by simp [hsteps],
          ?_, ?_, fun _ _ => ⟨hsteps, hloop⟩, Or.inl (by rw [hloop]; exact hok)⟩
        · intro j hj; rw [hsteps] at hj; omega
        · intro hne; exact absurd hl hne
      · have hne : cs ≠ [] := by
          intro hc; subst hc; simp at hl
        have hlt : cs.dropLast.length ≤ n := by
          rw [List.length_dropLast]
          have : 0 < cs.length := List.length_pos.mpr hne
          omega
        have hloop : adjustLoop ok cs = adjustLoop ok cs.dropLast := by
          rw [adjustLoop]; simp [hl, hok]
        have hsteps : adjustSteps ok cs = adjustSteps ok cs.dropLast + 1 := by
          rw [adjustSteps]; simp [hl, hok]
        obtain ⟨ih1, ih2, ih3, _ih4, _ih5, ih6⟩ := ih cs.dropLast hlt
        refine ⟨?_, ?_, ?_, ?_, ?_, ?_⟩
        · rw [hloop, hsteps]; exact ih1
        · rw [hsteps, trailingNulls_dropLast cs hl]; omega
        · intro j hj
          cases j with
          | zero => exact ⟨hl, by simpa using hok⟩
          | succ j' =>
            rw [hsteps] at hj
            exact ih3 j' (by omega)
        · intro hcon; exact absurd hl hcon
        · intro _ hcon; exact absurd hcon hok
        · rw [hloop]; exact ih6
    · have hloop : adjustLoop ok cs = cs := by rw [adjustLoop]; simp [hl]
      have hsteps : adjustSteps ok cs = 0 := by rw [adjustSteps]; simp [hl]
      refine ⟨by simp [hloop, hsteps, dropLastN], by simp [hsteps],
        ?_, fun _ => ⟨hsteps, hloop⟩, ?_, Or.inr (by rw [hloop]; exact hl)⟩
      · intro j hj; rw [hsteps] at hj; omega
      · intro hcon; exact absurd hcon hl

/-- C3: the verification hash input always consists of exactly two 20-byte
parent slots followed by the candidate bytes; the parent hashes are sorted by
byte value before filling the slots, and missing slots are the all-zero null
hash. -/
theorem c3_two_parent_slots (parents : List (List Nat)) (cs : List Nat)
    (h20 : ∀ p ∈ parents, p.length = 20) :
    ∃ s1 s2, hashParentSlots parents = [s1, s2] ∧
      verifInput parents cs = s1 ++ s2 ++ cs ∧
      s1.length = 20 ∧ s2.length = 20 ∧
      (parents = [] → s1 = nullOid ∧ s2 = nullOid) ∧
      (∀ p, parents = [p] → s1 = p ∧ s2 = nullOid) ∧
      (2 ≤ parents.length → s1 ∈ parents ∧ s2 ∈ parents ∧ LexLe s1 s2) := by
  have hperm := sortBytes_perm parents
  have hsort := sortBytes_sorted parents
  have hnull : nullOid.length = 20 := by simp [nullOid]
  rcases hS : sortBytes parents with _ | ⟨a, _ | ⟨b, rest⟩⟩
  · have hp : parents = [] := by
      rw [hS] at hperm
      have hlen := hperm.length_eq
      simp at hlen
      exact List.length_eq_zero.mp hlen.symm
    subst hp
    refine ⟨nullOid, nullOid, ?_, ?_, hnull, hnull, fun _ => ⟨rfl, rfl⟩, ?_, ?_⟩
    · simp [hashParentSlots, hS]
    · simp [verifInput, hashParentSlots, hS, List.append_assoc]
    · intro p hp2; exact absurd hp2 (by simp)
    · intro habs; simp at habs
  · have hp : parents = [a] := by
      rw [hS] at hperm
      exact List.perm_singleton.mp hperm.symm
    have ha : a ∈ parents := by rw [hp]; simp
    refine ⟨a, nullOid, ?_, ?_, h20 a ha, hnull, ?_, ?_, ?_⟩
    · simp [hashParentSlots, hS]
    · simp [verifInput, hashParentSlots, hS, List.append_assoc]
    · intro habs; rw [habs] at hp; exact absurd hp (by simp)
    · intro p hp2
      rw [hp] at hp2
      have hap : a = p := by simpa using hp2
      subst hap
      exact ⟨rfl, rfl⟩
    · intro habs; rw [hp] at habs; simp at habs
  · rw [hS] at hperm hsort
    have hmem : ∀ x ∈ a :: b :: rest, x ∈ parents := fun x hx => hperm.mem_iff.mp hx
    have ha : a ∈ parents := hmem a (by simp)
    have hb : b ∈ parents := hmem b (by simp)
    refine ⟨a, b, ?_, ?_, h20 a ha, h20 b hb, ?_, ?_, ?_⟩
    · simp [hashParentSlots, hS]
    · simp [verifInput, hashParentSlots, hS, List.append_assoc]
    · intro habs
      rw [habs] at hperm
      have := hperm.length_eq; simp at this
    · intro p habs
      rw [habs] at hperm
      have := hperm.length_eq; simp at this
    · intro _
      exact ⟨ha, hb, (List.sorted_cons.mp hsort).1 b (by simp)⟩

theorem c3_witness :
    (∀ p ∈ ([] : List (List Nat)), p.length = 20) ∧
    ∃ s1 s2, hashParentSlots [] = [s1, s2] ∧
      verifInput [] [7] = s1 ++ s2 ++ [7] ∧
      s1.length = 20 ∧ s2.length = 20 ∧
      (([] : List (List Nat)) = [] → s1 = nullOid ∧ s2 = nullOid) ∧
      (∀ p, ([] : List (List Nat)) = [p] → s1 = p ∧ s2 = nullOid) ∧
      (2 ≤ ([] : List (List Nat)).length →
        s1 ∈ ([] : List (List Nat)) ∧ s2 ∈ ([] : List (List Nat)) ∧ LexLe s1 s2) :=
  ⟨by simp, c3_two_parent_slots [] [7] (by simp)⟩

/-- C9: for any commit, only the first two elements of the byte-wise sorted
parent hash list feed the verification hash: the sorted list starts with the
slots `s1, s2`, every remaining parent hash compares above both, and the hash
input is the two slots followed by the candidate bytes. -/
theorem c9_two_smallest (parents : List (List Nat)) (cs : List Nat)
    (h2 : 2 ≤ parents.length) :
    ∃ s1 s2 rest, sortBytes parents = s1 :: s2 :: rest ∧
      verifInput parents cs = s1 ++ s2 ++ cs ∧
      parents.Perm (s1 :: s2 :: rest) ∧
      LexLe s1 s2 ∧ ∀ q ∈ rest, LexLe s1 q ∧ LexLe s2 q := by
  have hperm := sortBytes_perm parents
  have hsort := sortBytes_sorted parents
  rcases hS : sortBytes parents with _ | ⟨a, _ | ⟨b, rest⟩⟩
  · rw [hS] at hperm
    have := hperm.length_eq; simp at this; omega
  · rw [hS] at hperm
    have := hperm.length_eq; simp at this; omega
  · rw [hS] at hperm hsort
    obtain ⟨hab, hsort2⟩ := List.sorted_cons.mp hsort
    obtain ⟨hbq, _⟩ := List.sorted_cons.mp hsort2
    refine ⟨a, b, rest, rfl, ?_, hperm.symm, hab b (by simp), ?_⟩
    · simp [verifInput, hashParentSlots, hS, List.append_assoc]
    · intro q hq
      exact ⟨hab q (List.mem_cons_of_mem b hq), hbq q hq⟩

theorem c9_witness :
    2 ≤ ([[2], [1], [3]] : List (List Nat)).length ∧
    ∃ s1 s2 rest, sortBytes [[2], [1], [3]] = s1 :: s2 :: rest ∧
      verifInput [[2], [1], [3]] [7] = s1 ++ s2 ++ [7] ∧
      ([[2], [1], [3]] : List (List Nat)).Perm (s1 :: s2 :: rest) ∧
      LexLe s1 s2 ∧ ∀ q ∈ rest, LexLe s1 q ∧ LexLe s2 q :=
  ⟨by decide, c9_two_smallest [[2], [1], [3]] [7] (by decide)⟩

theorem applyPatchAux_wf (b : List Nat) (edits : List (Nat × Nat × List Nat)) :
    ∀ (cur : Nat) (acc : List Nat),
      patchWFb b.length edits cur = true →
      applyPatchAux b edits cur acc = some (acc ++ applyPatchSpec b edits cur) := by
  induction edits with
  | nil =>
    intro cur acc h
    have hcur : cur ≤ b.length := by simpa [patchWFb] using h
    simp [applyPatchAux, applyPatchSpec, sliceFrom, hcur]
  | cons ed rest ih =>
    obtain ⟨s, e, d⟩ := ed
    intro cur acc h
    simp only [patchWFb, Bool.and_eq_true, decide_eq_true_eq] at h
    obtain ⟨⟨hcs, hsl⟩, hrest⟩ := h
    have hslice : sliceR b cur s = some ((b.take s).drop cur) := by
      simp [sliceR, hcs, hsl]
    simp only [applyPatchAux]
    rw [hslice]
    show applyPatchAux b rest e (acc ++ List.drop cur (List.take s b) ++ percentDecode d) =
      some (acc ++ applyPatchSpec b ((s, e, d) :: rest) cur)
    rw [ih e (acc ++ List.drop cur (List.take s b) ++ percentDecode d) hrest]
    simp only [applyPatchSpec]
    rw [List.drop_take]
    simp [List.append_assoc]

/-- C4: patch application follows the cursor semantics of the edit loop: for
every in-range edit list, the output is the baseline bytes from the cursor up
to each edit's start, the percent-decoded data, the cursor advanced to the
edit's end, and the remaining baseline bytes after the last edit; on baseline
"0123456789" with edits [(2,4,"XY"),(6,8,"Z")] the result is "01XY45Z89". -/
theorem c4_patch_application :
    (∀ (edits : List (Nat × Nat × List Nat)) (b : List Nat),
      patchWFb b.length edits 0 = true →
      applyPatch edits b = some (applyPatchSpec b edits 0)) ∧
    applyPatch [(2, 4, bytes "XY"), (6, 8, bytes "Z")] (bytes "0123456789") =
      some (bytes "01XY45Z89") := by
  constructor
  · intro edits b h
    simpa [applyPatch] using applyPatchAux_wf b edits 0 [] h
  · decide

theorem c4_witness :
    patchWFb (bytes "0123456789").length [(2, 4, bytes "XY"), (6, 8, bytes "Z")] 0 = true ∧
    applyPatch [(2, 4, bytes "XY"), (6, 8, bytes "Z")] (bytes "0123456789") =
      some (applyPatchSpec (bytes "0123456789") [(2, 4, bytes "XY"), (6, 8, bytes "Z")] 0) :=
  ⟨by decide, c4_patch_application.1 [(2, 4, bytes "XY"), (6, 8, bytes "Z")]
    (bytes "0123456789") (by decide)⟩

theorem mergeExtraCommitter_isSome (extra hgCommitter : Option (List Nat))
    (h : extra.isSome = true ∨ hgCommitter.isSome = true) :
    (mergeExtraCommitter extra hgCommitter).isSome = true := by
  rcases extra with _ | e <;> rcases hgCommitter with _ | c <;>
    simp [mergeExtraCommitter] at h ⊢

theorem foldl_newline_cons (fs : List (List Nat)) :
    ∀ acc : List Nat, fs.foldl (fun a f => a ++ 10 :: f) acc =
      acc ++ fs.flatMap (fun f => 10 :: f) := by
  induction fs with
  | nil => intro acc; simp
  | cons f fs ih =>
    intro acc
    rw [List.foldl_cons, List.flatMap_cons, ih]
    simp [List.append_assoc]

theorem parseMetaLine_manifest (m0 : MetadataRec) (line : List Nat) (m1 : MetadataRec)
    (h : parseMetaLine m0 line = PResult.ok m1)
    (hno : ∀ v, split2 32 line ≠ some (bytes "manifest", v)) :
    m1.manifest = m0.manifest := by
  rcases hsp : split2 32 line with _ | ⟨k, v⟩
  · simp [parseMetaLine, hsp] at h
  · have hkm : ¬(k = bytes "manifest") := fun hk => hno v (hk ▸ hsp)
    simp only [parseMetaLine, hsp] at h
    split at h
    · split at h
      · simp only [PResult.ok.injEq] at h
        rw [← h]
      · exact absurd h (by simp)
    · split at h
      · simp only [PResult.ok.injEq] at h
        rw [← h]
      · split at h
        · simp only [PResult.ok.injEq] at h
          rw [← h]
        · split at h
          · simp only [PResult.ok.injEq] at h
            rw [← h]
          · split at h
            · simp only [PResult.ok.injEq] at h
              rw [← h]
            · exact absurd h (by simp)

/-- C5: the baseline changeset bytes are assembled as the manifest hash in
lowercase hex, newline, author, newline, timestamp, space, utc offset, then
optionally one space and the merged extra payload, then each file path of the
sorted file list preceded by a newline, then two newlines and the body
verbatim; a metadata record without a `manifest` line keeps the null manifest,
which renders as forty `0` characters. -/
theorem c5_baseline_assembly :
    (∀ manifest hgAuthor hgTimestamp hgUtcoffset extra hgCommitter files body out,
      buildChangeset manifest hgAuthor hgTimestamp hgUtcoffset extra hgCommitter
        files body = some out →
      ∃ extraPart filesPart,
        out = hexLower manifest ++ [10] ++ hgAuthor ++ [10] ++ hgTimestamp ++ [32] ++
          hgUtcoffset ++ extraPart ++ filesPart ++ [10, 10] ++ body ∧
        (extra = none → hgCommitter = none → extraPart = []) ∧
        (∀ m, mergeExtraCommitter extra hgCommitter = some m →
          (extra.isSome = true ∨ hgCommitter.isSome = true) → extraPart = 32 :: m) ∧
        (files = none → filesPart = []) ∧
        (∀ fl, files = some fl → ∃ sorted, sorted.Perm (splitOnNull fl) ∧
          List.Sorted LexLe sorted ∧ filesPart = sorted.flatMap (fun f => 10 :: f))) ∧
    initMeta.manifest = nullOid ∧
    hexLower nullOid = List.replicate 40 48 ∧
    (∀ lines m0 res, parseMetaLines lines m0 = PResult.ok res →
      (∀ l ∈ lines, ∀ v, split2 32 l ≠ some (bytes "manifest", v)) →
      res.manifest = m0.manifest) := by
  refine ⟨?_, rfl, by decide, ?_⟩
  · intro manifest a ts off ex cm fs body out hout
    by_cases hg : (ex.isSome || cm.isSome) = true
    · have hg' : ex.isSome = true ∨ cm.isSome = true := by simpa using hg
      rcases hm : mergeExtraCommitter ex cm with _ | m
      · exfalso
        have hs := mergeExtraCommitter_isSome ex cm hg'
        rw [hm] at hs; simp at hs
      · rcases fs with _ | fl
        · simp [buildChangeset, hg, hm] at hout
          refine ⟨32 :: m, [], ?_, ?_, ?_, fun _ => rfl, ?_⟩
          · rw [← hout]; simp [List.append_assoc]
          · intro h1 h2; subst h1; subst h2; simp at hg
          · intro m' hm' _
            obtain rfl : m = m' := Option.some_inj.mp hm'
            rfl
          · intro fl h; simp at h
        · simp [buildChangeset, hg, hm] at hout
          refine ⟨32 :: m, (sortBytes (splitOnNull fl)).flatMap (fun f => 10 :: f),
            ?_, ?_, ?_, ?_, ?_⟩
          · rw [← hout]; simp [foldl_newline_cons, List.append_assoc]
          · intro h1 h2; subst h1; subst h2; simp at hg
          · intro m' hm' _
            obtain rfl : m = m' := Option.some_inj.mp hm'
            rfl
          · intro h; simp at h
          · intro fl' hfl'
            obtain rfl : fl = fl' := by simpa using hfl'
            exact ⟨sortBytes (splitOnNull fl), sortBytes_perm _, sortBytes_sorted _, rfl⟩
    · have hb : (ex.isSome || cm.isSome) = false := by
        cases hbv : (ex.isSome || cm.isSome) with
        | true => exact absurd hbv hg
        | false => rfl
      obtain ⟨hexn, hcmn⟩ := Bool.or_eq_false_iff.mp hb
      have hexn' : ex = none := Option.not_isSome_iff_eq_none.mp (by simp [hexn])
      have hcmn' : cm = none := Option.not_isSome_iff_eq_none.mp (by simp [hcmn])
      subst hexn'; subst hcmn'
      rcases fs with _ | fl
      · simp [buildChangeset] at hout
        refine ⟨[], [], ?_, fun _ _ => rfl, ?_, fun _ => rfl, ?_⟩
        · rw [← hout]; simp [List.append_assoc]
        · intro m' _ habs; simp at habs
        · intro fl h; simp at h
      · simp [buildChangeset] at hout
        refine ⟨[], (sortBytes (splitOnNull fl)).flatMap (fun f => 10 :: f),
          ?_, fun _ _ => rfl, ?_, ?_, ?_⟩
        · rw [← hout]; simp [foldl_newline_cons, List.append_assoc]
        · intro m' _ habs; simp at habs
        · intro h; simp at h
        · intro fl' hfl'
          obtain rfl : fl = fl' := by simpa using hfl'
          exact ⟨sortBytes (splitOnNull fl), sortBytes_perm _, sortBytes_sorted _, rfl⟩
  · intro lines
    induction lines with
    | nil =>
      intro m0 res h _
      simp [parseMetaLines] at h
      rw [← h]
    | cons line rest ih =>
      intro m0 res h hno
      cases hpl : parseMetaLine m0 line with
      | ok m1 =>
        simp only [parseMetaLines, hpl] at h
        have h2 := ih m1 res h (fun l hl v' => hno l (List.mem_cons_of_mem _ hl) v')
        rw [h2, parseMetaLine_manifest m0 line m1 hpl (fun v' => hno line (by simp) v')]
      | panicked s =>
        simp only [parseMetaLines, hpl] at h
        exact absurd h (by simp)

theorem c5_witness :
    buildChangeset nullOid (bytes "a") (bytes "0") (bytes "0") none none none
        (bytes "body") =
      some (hexLower nullOid ++ [10] ++ bytes "a" ++ [10] ++ bytes "0" ++ [32] ++
        bytes "0" ++ [10, 10] ++ bytes "body") ∧
    ∃ extraPart filesPart,
      (hexLower nullOid ++ [10] ++ bytes "a" ++ [10] ++ bytes "0" ++ [32] ++
        bytes "0" ++ [10, 10] ++ bytes "body") =
        hexLower nullOid ++ [10] ++ bytes "a" ++ [10] ++ bytes "0" ++ [32] ++
          bytes "0" ++ extraPart ++ filesPart ++ [10, 10] ++ bytes "body" ∧
      ((none : Option (List Nat)) = none → (none : Option (List Nat)) = none →
        extraPart = []) ∧
      (∀ m, mergeExtraCommitter none none = some m →
        ((none : Option (List Nat)).isSome = true ∨
          (none : Option (List Nat)).isSome = true) → extraPart = 32 :: m) ∧
      ((none : Option (List Nat)) = none → filesPart = []) ∧
      (∀ fl, (none : Option (List Nat)) = some fl → ∃ sorted,
        sorted.Perm (splitOnNull fl) ∧ List.Sorted LexLe sorted ∧
        filesPart = sorted.flatMap (fun f => 10 :: f)) :=
  ⟨by decide, c5_baseline_assembly.1 nullOid (bytes "a") (bytes "0") (bytes "0")
    none none none (bytes "body") _ (by decide)⟩

theorem parseMetaLine_key (m0 : MetadataRec) (line : List Nat) (m1 : MetadataRec)
    (h : parseMetaLine m0 line = PResult.ok m1) :
    ∀ k v, split2 32 line = some (k, v) → k ∈ metaKeys := by
  intro k v hsp
  simp only [parseMetaLine, hsp] at h
  by_contra hk
  have h1 : ¬ k = bytes "changeset" := fun hh => hk (by rw [hh]; simp [metaKeys])
  have h2 : ¬ k = bytes "manifest" := fun hh => hk (by rw [hh]; simp [metaKeys])
  have h3 : ¬ k = bytes "author" := fun hh => hk (by rw [hh]; simp [metaKeys])
  have h4 : ¬ k = bytes "extra" := fun hh => hk (by rw [hh]; simp [metaKeys])
  have h5 : ¬ k = bytes "files" := fun hh => hk (by rw [hh]; simp [metaKeys])
  have h6 : ¬ k = bytes "patch" := fun hh => hk (by rw [hh]; simp [metaKeys])
  simp [h1, h2, h3, h4, h5, h6] at h

/-- C6, counterexample: with a metadata note containing the unrecognized key
`frobnicate`, the changeset dump does not return an error value: it aborts via
the `Malformed metadata` panic. -/
theorem c6_counterexample :
    doDataChangeset (fun a => (a, bytes "0", bytes "0")) (fun c => c) (fun _ => none)
        (fun _ => nullOid) "abc" (some nullOid) (some (bytes "frobnicate x\n"))
        (some (bytes "author a\ncommitter a\n\nbody")) =
      DOutcome.panicked "Malformed metadata" ∧
    ∀ msg, doDataChangeset (fun a => (a, bytes "0", bytes "0")) (fun c => c) (fun _ => none)
        (fun _ => nullOid) "abc" (some nullOid) (some (bytes "frobnicate x\n"))
        (some (bytes "author a\ncommitter a\n\nbody")) ≠
      DOutcome.err msg := by
  have hres : doDataChangeset (fun a => (a, bytes "0", bytes "0")) (fun c => c)
      (fun _ => none) (fun _ => nullOid) "abc" (some nullOid)
      (some (bytes "frobnicate x\n")) (some (bytes "author a\ncommitter a\n\nbody")) =
      DOutcome.panicked "Malformed metadata" := by decide
  refine ⟨hres, fun msg h => ?_⟩
  rw [hres] at h
  exact DOutcome.noConfusion h

/-- C6, amended: for a commit known to be translated, a missing metadata note
aborts the request via a panic (not a returned error value), and any metadata
line with an unrecognized key aborts via the `Malformed metadata` panic — a
hard parse failure; no line of a successfully parsed note carries an
unrecognized key. -/
theorem c6_amended_panic_behavior :
    (∀ (cp : List Nat → List Nat × List Nat × List Nat) (cb : List Nat → List Nat)
      (p2h : List Nat → Option (List Nat)) (sha : List Nat → List Nat)
      (revStr : String) (g : List Nat) (commitRes : Option (List Nat)),
      doDataChangeset cp cb p2h sha revStr (some g) none commitRes =
        DOutcome.panicked "called Option.unwrap on a None value") ∧
    (∀ (m0 : MetadataRec) (line : List Nat) (rest : List (List Nat)) (k v : List Nat),
      split2 32 line = some (k, v) → k ∉ metaKeys →
      parseMetaLines (line :: rest) m0 = PResult.panicked "Malformed metadata") ∧
    (∀ (lines : List (List Nat)) (m0 res : MetadataRec),
      parseMetaLines lines m0 = PResult.ok res →
      ∀ l ∈ lines, ∀ k v, split2 32 l = some (k, v) → k ∈ metaKeys) := by
  refine ⟨fun _ _ _ _ _ _ _ => rfl, ?_, ?_⟩
  · intro m0 line rest k v hsp hk
    have h1 : ¬ k = bytes "changeset" := fun hh => hk (by rw [hh]; simp [metaKeys])
    have h2 : ¬ k = bytes "manifest" := fun hh => hk (by rw [hh]; simp [metaKeys])
    have h3 : ¬ k = bytes "author" := fun hh => hk (by rw [hh]; simp [metaKeys])
    have h4 : ¬ k = bytes "extra" := fun hh => hk (by rw [hh]; simp [metaKeys])
    have h5 : ¬ k = bytes "files" := fun hh => hk (by rw [hh]; simp [metaKeys])
    have h6 : ¬ k = bytes "patch" := fun hh => hk (by rw [hh]; simp [metaKeys])
    simp [parseMetaLines, parseMetaLine, hsp, h1, h2, h3, h4, h5, h6]
  · intro lines
    induction lines with
    | nil => intro m0 res _ l hl; simp at hl
    | cons line rest ih =>
      intro m0 res h l hl k v hsp
      cases hpl : parseMetaLine m0 line with
      | ok m1 =>
        simp only [parseMetaLines, hpl] at h
        rcases List.mem_cons.mp hl with rfl | hl2
        · exact parseMetaLine_key m0 l m1 hpl k v hsp
        · exact ih m1 res h l hl2 k v hsp
      | panicked s =>
        simp only [parseMetaLines, hpl] at h
        exact absurd h (by simp)

theorem c6_witness :
    split2 32 (bytes "frobnicate x") = some (bytes "frobnicate", bytes "x") ∧
    bytes "frobnicate" ∉ metaKeys ∧
    parseMetaLines [bytes "frobnicate x"] initMeta =
      PResult.panicked "Malformed metadata" :=
  ⟨by decide, by decide, c6_amended_panic_behavior.2.1 initMeta (bytes "frobnicate x")
    [] (bytes "frobnicate") (bytes "x") (by decide) (by decide)⟩

/-- C7: the batch translation commands never abort on an unresolved input:
they return one output line per input, in input order, rendering the all-zero
placeholder for each unresolved input; the changeset dump instead fails its
whole request with an `Unknown revision` error value when the revision has no
target mapping. -/
theorem c7_batch_lookups :
    (∀ (toGit : List Nat → Option (List Nat)) (wOpt : Option Nat)
      (sha1s : List (List Nat)), wOpt.getD 40 ≤ 40 →
      ∃ outLines, doHg2git toGit wOpt sha1s = Except.ok outLines ∧
        outLines.length = sha1s.length ∧
        ∀ i : Fin sha1s.length, ∃ hi : (i : Nat) < outLines.length,
          outLines.get ⟨i, hi⟩ =
            (hexLower ((toGit (sha1s.get i)).getD nullOid)).take (wOpt.getD 40) ∧
          (toGit (sha1s.get i) = none →
            outLines.get ⟨i, hi⟩ = List.replicate (wOpt.getD 40) 48)) ∧
    (∀ (resolveC toHg : List Nat → Option (List Nat)) (wOpt : Option Nat)
      (committish : List (List Nat)), wOpt.getD 40 ≤ 40 →
      ∃ outLines, doGit2hg resolveC toHg wOpt committish = Except.ok outLines ∧
        outLines.length = committish.length ∧
        ∀ i : Fin committish.length, ∃ hi : (i : Nat) < outLines.length,
          outLines.get ⟨i, hi⟩ =
            (hexLower (((resolveC (committish.get i)).bind toHg).getD nullOid)).take
              (wOpt.getD 40) ∧
          ((resolveC (committish.get i)).bind toHg = none →
            outLines.get ⟨i, hi⟩ = List.replicate (wOpt.getD 40) 48)) ∧
    (∀ (cp : List Nat → List Nat × List Nat × List Nat) (cb : List Nat → List Nat)
      (p2h : List Nat → Option (List Nat)) (sha : List Nat → List Nat)
      (revStr : String) (noteRes commitRes : Option (List Nat)),
      doDataChangeset cp cb p2h sha revStr none noteRes commitRes =
        DOutcome.err ("Unknown revision: " ++ revStr)) := by
  have hxn : hexLower nullOid = List.replicate 40 48 := by decide
  refine ⟨?_, ?_, fun _ _ _ _ _ _ _ => rfl⟩
  · intro toGit wOpt sha1s hw
    refine ⟨_, rfl, by simp, ?_⟩
    intro i
    refine ⟨by simpa using i.isLt, ?_, fun hnone => ?_⟩
    · simp only [List.get_eq_getElem, List.getElem_map]
    · simp only [List.get_eq_getElem] at hnone
      simp only [List.get_eq_getElem, List.getElem_map]
      rw [hnone, Option.getD_none, hxn, List.take_replicate, inf_eq_left.mpr hw]
  · intro resolveC toHg wOpt committish hw
    refine ⟨_, rfl, by simp, ?_⟩
    intro i
    refine ⟨by simpa using i.isLt, ?_, fun hnone => ?_⟩
    · simp only [List.get_eq_getElem, List.getElem_map]
    · simp only [List.get_eq_getElem] at hnone
      simp only [List.get_eq_getElem, List.getElem_map]
      rw [hnone, Option.getD_none, hxn, List.take_replicate, inf_eq_left.mpr hw]

theorem c7_witness :
    (some 3 : Option Nat).getD 40 ≤ 40 ∧
    ∃ outLines, doHg2git (fun _ => none) (some 3) [[1], [2]] = Except.ok outLines ∧
      outLines.length = ([[1], [2]] : List (List Nat)).length ∧
      ∀ i : Fin ([[1], [2]] : List (List Nat)).length,
        ∃ hi : (i : Nat) < outLines.length,
          outLines.get ⟨i, hi⟩ =
            (hexLower (((fun _ => (none : Option (List Nat)))
              (([[1], [2]] : List (List Nat)).get i)).getD nullOid)).take
              ((some 3 : Option Nat).getD 40) ∧
          ((fun _ => (none : Option (List Nat)))
              (([[1], [2]] : List (List Nat)).get i) = none →
            outLines.get ⟨i, hi⟩ = List.replicate ((some 3 : Option Nat).getD 40) 48) :=
  ⟨by decide, c7_batch_lookups.1 (fun _ => none) (some 3) [[1], [2]] (by decide)⟩

theorem hexDigitChar_isHex (n : Nat) (h : n < 16) :
    isHexDigitByte (hexDigitChar n) = true := by
  simp only [hexDigitChar, isHexDigitByte]
  by_cases h10 : n < 10 <;> simp [h10] <;> omega

/-- C8: abbreviation renders the first `w` hex digits of the full 40-digit
rendering — the output has exactly `w` hex characters and is a prefix of the
full rendering; the width defaults to 12 when the abbreviation option carries
no value, and an explicit width is accepted exactly in the range 3 to 40. -/
theorem c8_abbreviation :
    (∀ (h : List Nat) (w : Nat), h.length = 20 → (∀ b ∈ h, b < 256) → w ≤ 40 →
      (abbreviate h w).length = w ∧
      (∃ t, abbreviate h 40 = abbreviate h w ++ t) ∧
      (∀ c ∈ abbreviate h w, isHexDigitByte c = true)) ∧
    effectiveAbbrev (some []) = some 12 ∧
    (∀ (v : Nat) (vs : List Nat), effectiveAbbrev (some (v :: vs)) = some v) ∧
    (∀ v : Nat, 3 ≤ v → v ≤ 40 → abbrevSizeCheck v = Except.ok v) ∧
    (∀ v : Nat, v < 3 ∨ 40 < v → ∃ msg, abbrevSizeCheck v = Except.error msg) := by
  refine ⟨?_, rfl, fun v vs => rfl, ?_, ?_⟩
  · intro h w hl hb hw
    have hlen : (hexLower h).length = 40 := by rw [hexLower_length, hl]
    refine ⟨?_, ⟨(hexLower h).drop w, ?_⟩, ?_⟩
    · simp [abbreviate, List.length_take, hlen, inf_eq_left.mpr hw]
    · rw [abbreviate, abbreviate, List.take_of_length_le (by omega),
        List.take_append_drop]
    · intro c hc
      have hc2 : c ∈ hexLower h := List.mem_of_mem_take hc
      obtain ⟨b, hbm, hcb⟩ := List.mem_flatMap.mp hc2
      have hblt := hb b hbm
      rcases List.mem_cons.mp hcb with hcb1 | hcb1
      · rw [hcb1]; exact hexDigitChar_isHex _ (by omega)
      · rcases List.mem_cons.mp hcb1 with hcb2 | hcb2
        · rw [hcb2]; exact hexDigitChar_isHex _ (by omega)
        · simp at hcb2
  · intro v h3 h40
    rw [abbrevSizeCheck, if_pos ⟨h3, h40⟩]
  · intro v hv
    rcases hv with hlt | hgt
    · refine ⟨"value too small: " ++ toString v, ?_⟩
      have h1 : ¬(3 ≤ v ∧ v ≤ 40) := by omega
      have h2 : ¬(41 ≤ v) := by omega
      simp [abbrevSizeCheck, h1, h2]
    · refine ⟨"value too large: " ++ toString v, ?_⟩
      have h1 : ¬(3 ≤ v ∧ v ≤ 40) := by omega
      have h2 : 41 ≤ v := by omega
      simp [abbrevSizeCheck, h1, h2]

theorem c8_witness :
    nullOid.length = 20 ∧ (∀ b ∈ nullOid, b < 256) ∧ 3 ≤ 40 ∧
    ((abbreviate nullOid 3).length = 3 ∧
      (∃ t, abbreviate nullOid 40 = abbreviate nullOid 3 ++ t) ∧
      (∀ c ∈ abbreviate nullOid 3, isHexDigitByte c = true)) :=
  ⟨by decide, by decide, by decide,
    c8_abbreviation.1 nullOid 3 (by decide) (by decide) (by decide)⟩

end Cinnabar
